import Mathlib

/-!
Verification of the nested-diagnostic-context (NDC) core of the log4cxx
repository, together with its secondary message-extraction component.

The repository surface under verification consists of the declarations in
`src/src/main/include/log4cxx/ndc.h` (class `NDC`, its inner frame class
`DiagnosticContext`, and the static operations `push`, `pushLogString`,
`pop`, `peek`, `clear`, `get`, `getDepth`, `empty`, `remove`, plus the
scoped constructor/destructor pair) and
`src/include/log4cxx/pattern/messagepatternconverter.h`
(class `MessagePatternConverter` with `newInstance` and `format`).
The translation units implementing these declarations are not part of the
given sources, so the operational behaviour is modelled from the
specification (`spec.md`), which describes the data model
(sections 3 and 4) and the testable properties (section 8) in full.
-/

namespace Log4cxx

/-- Embeds `NDC::DiagnosticContext` (ndc.h lines 97-108): one context frame,
holding the client-supplied `message` and the precomputed `fullMessage`. -/
structure DiagnosticContext where
  fullMessage : String
  message : String
  deriving Repr, DecidableEq

/-- Embeds `NDC::Stack` (ndc.h line 111), a LIFO stack of frames.
The list head is the top of the stack. -/
abbrev Stack := List DiagnosticContext

/-- Modelled from the spec: the separator used when concatenating ancestor
messages into `fullMessage`.  The implementation of
`DiagnosticContext::DiagnosticContext` is not under `src/`; the spec's
concrete scenario (section 8: `get` yields `"client=1.2.3.4 request=/index"`)
fixes it as a single space. -/
def sep : String := " "

/-- Modelled from the spec: the `DiagnosticContext(message, parent)`
constructor, whose implementation is not under `src/`.  Per spec section 3,
`fullMessage` is computed once, at push time, as
`parent.fullMessage + separator + message`, or just `message` if no parent. -/
def mkFrame (message : String) (parent : Option DiagnosticContext) : DiagnosticContext :=
  match parent with
  | none => ⟨message, message⟩
  | some p => ⟨p.fullMessage ++ sep ++ message, message⟩

namespace NDC

/-- Modelled from the spec: `NDC::push` (declared ndc.h lines 185-194, body
not under `src/`).  Per spec section 4.1: build a new frame whose parent is
the current top (if any), and append it. -/
def push (s : Stack) (message : String) : Stack :=
  mkFrame message s.head? :: s

/-- Modelled from the spec: `NDC::pushLogString` (declared ndc.h line 195,
body not under `src/`).  Per spec section 6 it is the push entry point taking
an already-encoded `LogString`; it appends exactly one frame built from the
given message. -/
def pushLogString (s : Stack) (message : String) : Stack :=
  mkFrame message s.head? :: s

/-- Modelled from the spec: `NDC::pop` (declared ndc.h lines 167-174, body
not under `src/`).  Per spec section 4.1: remove and return the top frame's
`message`; on an empty stack return `""` without error.  Returns the popped
message together with the remaining stack. -/
def pop (s : Stack) : String × Stack :=
  match s with
  | [] => ("", [])
  | f :: rest => (f.message, rest)

/-- Modelled from the spec: `NDC::peek` (declared ndc.h lines 176-183, body
not under `src/`).  Return the top frame's `message` without mutating;
`""` if empty. -/
def peek (s : Stack) : String :=
  match s with
  | [] => ""
  | f :: _ => f.message

/-- Modelled from the spec: `NDC::getDepth` (declared ndc.h lines 156-159,
body not under `src/`): the number of frames currently present. -/
def getDepth (s : Stack) : Nat :=
  s.length

/-- Modelled from the spec: `NDC::empty` (declared ndc.h lines 162-165, body
not under `src/`): tests whether the depth is zero. -/
def emptyq (s : Stack) : Bool :=
  s.isEmpty

/-- Modelled from the spec: `NDC::clear` (declared ndc.h lines 137-144, body
not under `src/`): remove all frames. -/
def clear (_s : Stack) : Stack :=
  []

/-- Modelled from the spec: `NDC::get` (declared ndc.h lines 147-154, body
not under `src/`).  Per spec section 4.1: if the stack is non-empty, append
the top frame's `fullMessage` to `dest` and return `true`; if empty, return
`false` and leave `dest` unmodified.  Returns the flag with the resulting
destination string. -/
def get (s : Stack) (dest : String) : Bool × String :=
  match s with
  | [] => (false, dest)
  | f :: _ => (true, dest ++ f.fullMessage)

/-- A sequence of pushes, first message pushed first. -/
def pushAll (s : Stack) (ms : List String) : Stack :=
  match ms with
  | [] => s
  | m :: rest => pushAll (push s m) rest

/-- Performs k successive pops, collecting the returned messages in order
together with the final stack. -/
def popSeq (s : Stack) : Nat → List String × Stack
  | 0 => ([], s)
  | k + 1 =>
      let r := pop s
      let r' := popSeq r.2 k
      (r.1 :: r'.1, r'.2)

end NDC

/-- The concatenation `m1 + sep + m2 + ... + sep + mk` of the claims. -/
def concatSep : List String → String
  | [] => ""
  | [m] => m
  | m :: rest => m ++ sep ++ concatSep rest

/-! ### Multi-thread model

The NDC operations are static and act on the calling thread's own stack
(ndc.h lines 42-46: "ndc operations such as push, pop, clear and getDepth
affect the ndc of the current thread only").  The per-thread storage is
modelled, per spec sections 3-5, as a map from thread identities to stacks;
a thread with no entry resolves to the empty stack. -/

/-- A stable thread-identity token (spec section 9). -/
abbrev ThreadId := Nat

/-- The per-thread stacks of the whole process: each thread identity maps to
its current stack, the empty stack when the thread never pushed (spec
section 4.2: reads of a missing stack degrade to "empty" results). -/
def ThreadState := ThreadId → Stack

/-- One NDC operation as invoked by some thread. -/
inductive Op where
  | push (message : String)
  | pop
  | clear
  | remove
  deriving Repr, DecidableEq

/-- Modelled from the spec: the effect of one NDC operation on the calling
thread's stack (spec sections 4.1-4.2; implementations of `NDC::push`,
`NDC::pop`, `NDC::clear`, `NDC::remove` are not under `src/`).  `remove`
deletes the thread's entry, so its stack thereafter resolves to empty. -/
def applyOp (s : Stack) : Op → Stack
  | .push m => NDC.push s m
  | .pop => (NDC.pop s).2
  | .clear => NDC.clear s
  | .remove => []

/-- Run a list of events, each an operation tagged with the thread that
performs it, over the per-thread state. -/
def run (g : ThreadState) : List (ThreadId × Op) → ThreadState
  | [] => g
  | (t, op) :: rest =>
      run (fun u => if u = t then applyOp (g t) op else g u) rest

/-- The operations a list of events makes on one particular thread's stack,
in order. -/
def projOps (t : ThreadId) (evs : List (ThreadId × Op)) : List Op :=
  (evs.filter (fun e => e.1 = t)).map (fun e => e.2)

/-! ### Registry with liveness and lazy reclamation -/

/-- Modelled from the spec: a registry entry (spec section 3,
`RegistryEntry`): association of a thread identity with its stack.  The
liveness marker is modelled as an external predicate on thread identities,
queried by the registry when it probes entries. -/
structure RegistryEntry where
  tid : ThreadId
  stack : Stack
  deriving Repr, DecidableEq

/-- Modelled from the spec: the process-wide registry (spec section 4.2),
a sequence of entries with at most one entry per thread identity. -/
abbrev Registry := List RegistryEntry

/-- Whether the registry holds an entry for the given thread. -/
def hasEntry (t : ThreadId) (reg : Registry) : Bool :=
  reg.any (fun e => e.tid = t)

/-- Modelled from the spec: lazy reclamation (spec sections 4.2 and 8):
on registry access the registry probes entries via the liveness marker and
purges those whose owning thread is dead.  `live t = true` means thread `t`
is still running. -/
def reclaim (live : ThreadId → Bool) (reg : Registry) : Registry :=
  reg.filter (fun e => live e.tid)

/-- Modelled from the spec: resolving "the stack for the calling thread"
(spec section 4.2): performed on every registry access; reclaims dead
entries, then looks the caller up, lazily creating an empty entry when
absent. -/
def resolve (live : ThreadId → Bool) (caller : ThreadId) (reg : Registry) : Registry :=
  let reg' := reclaim live reg
  if hasEntry caller reg' then reg' else ⟨caller, []⟩ :: reg'

/-- Modelled from the spec: `NDC::remove` (declared ndc.h lines 197-213,
body not under `src/`): explicitly deletes the calling thread's entry. -/
def removeEntry (caller : ThreadId) (reg : Registry) : Registry :=
  reg.filter (fun e => e.tid ≠ caller)

/-! ### Scoped guard (NDC constructor/destructor) -/

/-- The ways control can leave the scope that owns a guard (spec sections 6
and 9: release runs "on every exit path from its scope, including early
return or error unwind"). -/
inductive ScopeExit where
  | normal
  | earlyReturn
  | errorUnwind
  deriving Repr, DecidableEq

/-- Modelled from the spec: the `NDC(message)` constructor (declared ndc.h
lines 113-128, body not under `src/`): acquiring the guard performs
`push(message)` on the calling thread's stack. -/
def guardAcquire (message : String) (s : Stack) : Stack :=
  NDC.push s message

/-- Modelled from the spec: the `~NDC()` destructor (declared ndc.h lines
130-135, body not under `src/`): releasing the guard performs exactly one
`pop()`, whatever the exit path. -/
def guardRelease (_e : ScopeExit) (s : Stack) : Stack :=
  (NDC.pop s).2

/-- A guarded scope: push on entry, run the body (which reports how control
left the scope), pop once on release. -/
def guardRun (message : String) (body : Stack → ScopeExit × Stack) (s : Stack) :
    ScopeExit × Stack :=
  let r := body (guardAcquire message s)
  (r.1, guardRelease r.1 r.2)

/-! ### Message pattern converter -/

/-- The portion of a logging event that `MessagePatternConverter` can see:
its raw message plus unrelated fields, which `format` must ignore. -/
structure LoggingEvent where
  message : String
  loggerName : String
  level : Int
  timeStamp : Nat
  deriving Repr, DecidableEq

/-- The converter holds no state derived from its construction options
(messagepatternconverter.h line 48: options "current ignored"). -/
structure MessagePatternConverter where
  deriving Repr, DecidableEq

/-- Modelled from the spec: `MessagePatternConverter::newInstance` (declared
messagepatternconverter.h lines 51-52, body not under `src/`): obtains an
instance; the options are ignored. -/
def newInstance (_options : List String) : MessagePatternConverter :=
  ⟨⟩

/-- Modelled from the spec: `MessagePatternConverter::format` (declared
messagepatternconverter.h lines 57-59, body not under `src/`): appends the
event's raw message text to the destination buffer; a pure function with no
error branch (spec section 4.3). -/
def format (_c : MessagePatternConverter) (event : LoggingEvent)
    (toAppendTo : String) : String :=
  toAppendTo ++ event.message

/-- The chaining invariant on a stack: every frame's `fullMessage` is its
parent's `fullMessage`, the separator and its own `message` — or just its
own `message` for the bottom frame (spec section 3). -/
def fullMessageChained : Stack → Bool
  | [] => true
  | [f] => f.fullMessage == f.message
  | f :: p :: rest =>
      (f.fullMessage == p.fullMessage ++ sep ++ f.message) &&
        fullMessageChained (p :: rest)

/-- A scope body that leaves the stack untouched and exits early; used to
exercise the guard at a concrete input. -/
def idBody : Stack → ScopeExit × Stack :=
  fun s => (ScopeExit.earlyReturn, s)

/-! ## Helper lemmas -/

namespace NDC

theorem pushAll_length (ms : List String) : ∀ s : Stack,
    (pushAll s ms).length = s.length + ms.length := by
  induction ms with
  | nil => intro s; simp [pushAll]
  | cons m rest ih =>
      intro s
      have hstep : pushAll s (m :: rest) = pushAll (push s m) rest := rfl
      rw [hstep, ih (push s m)]
      simp [push]
      omega

theorem pushAll_topFull (ms : List String) (hms : ms ≠ []) : ∀ s : Stack,
    (pushAll s ms).head?.map DiagnosticContext.fullMessage =
      some (match s.head?.map DiagnosticContext.fullMessage with
            | none => concatSep ms
            | some f => f ++ sep ++ concatSep ms) := by
  induction ms with
  | nil => exact absurd rfl hms
  | cons m rest ih =>
      intro s
      cases rest with
      | nil =>
          cases s with
          | nil => simp [pushAll, push, mkFrame, concatSep]
          | cons f s' => simp [pushAll, push, mkFrame, concatSep]
      | cons m' rest' =>
          have hne : m' :: rest' ≠ [] := by simp
          have hstep : pushAll s (m :: m' :: rest') = pushAll (push s m) (m' :: rest') := rfl
          rw [hstep, ih hne (push s m)]
          cases s with
          | nil => simp [push, mkFrame, concatSep]
          | cons f s' => simp [push, mkFrame, concatSep, String.append_assoc]

theorem pushAll_peek (ms : List String) (hms : ms ≠ []) : ∀ s : Stack,
    peek (pushAll s ms) = ms.getLast hms := by
  induction ms with
  | nil => exact absurd rfl hms
  | cons m rest ih =>
      intro s
      cases rest with
      | nil =>
          cases s with
          | nil => rfl
          | cons f s' => rfl
      | cons m' rest' =>
          have hne : m' :: rest' ≠ [] := by simp
          have hstep : pushAll s (m :: m' :: rest') = pushAll (push s m) (m' :: rest') := rfl
          rw [hstep, ih hne (push s m)]
          exact (List.getLast_cons hne).symm

theorem pushAll_messages (ms : List String) : ∀ s : Stack,
    (pushAll s ms).map DiagnosticContext.message =
      ms.reverse ++ s.map DiagnosticContext.message := by
  induction ms with
  | nil => intro s; simp [pushAll]
  | cons m rest ih =>
      intro s
      simp only [pushAll]
      rw [ih (push s m)]
      simp [push, mkFrame]
      cases s.head? with
      | none => simp [mkFrame]
      | some p => simp [mkFrame]

theorem popSeq_full (s : Stack) :
    popSeq s s.length = (s.map DiagnosticContext.message, []) := by
  induction s with
  | nil => simp [popSeq]
  | cons f rest ih => simp [popSeq, pop, ih]

end NDC

theorem run_eq_foldl (evs : List (ThreadId × Op)) : ∀ (g : ThreadState) (t : ThreadId),
    run g evs t = List.foldl applyOp (g t) (projOps t evs) := by
  induction evs with
  | nil => intro g t; simp [run, projOps]
  | cons e rest ih =>
      intro g t
      obtain ⟨u, op⟩ := e
      simp only [run]
      rw [ih]
      by_cases h : t = u
      · subst h
        simp [projOps, List.filter]
      · have h' : u ≠ t := fun hc => h hc.symm
        simp [projOps, List.filter, h, h', if_neg h]

/-! ## Claim theorems -/

/-- Claim C1: for any single thread, after a sequence of k pushes with
messages m1..mk and no pops, `getDepth()` returns k, `peek()` returns mk,
and `get(dest)` appends the concatenation `m1 + sep + m2 + ... + sep + mk`
(single-space separator) to `dest` and returns true. -/
theorem C1_pushes_depth_peek_get (ms : List String) (hms : ms ≠ []) (dest : String) :
    NDC.getDepth (NDC.pushAll [] ms) = ms.length ∧
    NDC.peek (NDC.pushAll [] ms) = ms.getLast hms ∧
    NDC.get (NDC.pushAll [] ms) dest = (true, dest ++ concatSep ms) := by
  refine ⟨?_, NDC.pushAll_peek ms hms [], ?_⟩
  · have h := NDC.pushAll_length ms ([] : Stack)
    simpa [NDC.getDepth] using h
  · have h := NDC.pushAll_topFull ms hms ([] : Stack)
    cases hs : NDC.pushAll [] ms with
    | nil => rw [hs] at h; simp at h
    | cons f rest =>
        rw [hs] at h
        simp at h
        simp [NDC.get, h]

/-- Claim C1 witness: the concrete scenario — pushing `"client=1.2.3.4"`
then `"request=/index"` gives depth 2, peek `"request=/index"`, and `get`
producing `"client=1.2.3.4 request=/index"`. -/
theorem C1_witness :
    NDC.getDepth (NDC.pushAll [] ["client=1.2.3.4", "request=/index"]) = 2 ∧
    NDC.peek (NDC.pushAll [] ["client=1.2.3.4", "request=/index"]) = "request=/index" ∧
    NDC.get (NDC.pushAll [] ["client=1.2.3.4", "request=/index"]) "" =
      (true, "client=1.2.3.4 request=/index") := by
  have h := C1_pushes_depth_peek_get ["client=1.2.3.4", "request=/index"] (by simp) ""
  refine ⟨h.1, ?_, ?_⟩
  · rw [h.2.1]; rfl
  · rw [h.2.2]; rfl

/-- Claim C2: after k pushes with messages m1..mk, k subsequent pops return
mk, ..., m1 in that exact order; after all k pops the stack is empty, so
`getDepth()` is 0, `peek()` is `""`, and `get(dest)` returns false leaving
`dest` unmodified. -/
theorem C2_lifo_pops (ms : List String) (dest : String) :
    NDC.popSeq (NDC.pushAll [] ms) ms.length = (ms.reverse, []) ∧
    NDC.getDepth (NDC.popSeq (NDC.pushAll [] ms) ms.length).2 = 0 ∧
    NDC.peek (NDC.popSeq (NDC.pushAll [] ms) ms.length).2 = "" ∧
    NDC.get (NDC.popSeq (NDC.pushAll [] ms) ms.length).2 dest = (false, dest) := by
  have hlen : (NDC.pushAll [] ms).length = ms.length := by
    have h := NDC.pushAll_length ms ([] : Stack)
    simpa using h
  have hmsgs : (NDC.pushAll [] ms).map DiagnosticContext.message = ms.reverse := by
    have h := NDC.pushAll_messages ms ([] : Stack)
    simpa using h
  have hfull : NDC.popSeq (NDC.pushAll [] ms) ms.length = (ms.reverse, []) := by
    rw [← hlen, NDC.popSeq_full, hmsgs]
  refine ⟨hfull, ?_, ?_, ?_⟩ <;> rw [hfull] <;> rfl

/-- Claim C6: popping an empty stack (or the stack of a thread that never
created one) is a defined no-op returning `""`, leaving the stack empty with
depth 0. -/
theorem C6_pop_empty_noop :
    NDC.pop ([] : Stack) = ("", []) ∧
    NDC.getDepth (NDC.pop ([] : Stack)).2 = 0 ∧
    (∀ t u : ThreadId, run (fun _ => []) [(t, Op.pop)] u = []) := by
  refine ⟨rfl, rfl, ?_⟩
  intro t u
  simp [run, applyOp, NDC.pop]

/-- Claim C9: `format(event, buffer)` appends the event's raw message text
to the buffer and nothing else; it is a total pure function (deterministic,
no shared state, no error branch), ignores every non-message field of the
event, and is independent of the options given at construction. -/
theorem C9_format_appends_message (opts opts' : List String)
    (msg lg : String) (lv : Int) (ts : Nat) (buffer : String) :
    format (newInstance opts) ⟨msg, lg, lv, ts⟩ buffer = buffer ++ msg ∧
    newInstance opts = newInstance opts' :=
  ⟨rfl, rfl⟩

/-- Claim C10: `pushLogString(message)` has exactly the same effect on the
stack as `push` with the equivalent string: it appends exactly one frame
whose `message` field is the given value, and a subsequent `pop()` returns
that value with the prior stack restored. -/
theorem C10_pushLogString_equiv_push (s : Stack) (m : String) :
    NDC.pushLogString s m = NDC.push s m ∧
    (NDC.pushLogString s m).head?.map DiagnosticContext.message = some m ∧
    (NDC.pushLogString s m).tail = s ∧
    NDC.getDepth (NDC.pushLogString s m) = NDC.getDepth s + 1 ∧
    NDC.pop (NDC.pushLogString s m) = (m, s) := by
  refine ⟨rfl, ?_, rfl, rfl, ?_⟩
  · cases s with
    | nil => rfl
    | cons f s' => rfl
  · cases s with
    | nil => rfl
    | cons f s' => rfl

/-- Claim C4: each frame's `fullMessage` is computed exactly once, at push
time, as `parent.fullMessage + separator + message` (or just `message` when
the stack was empty); no operation changes it afterwards: push leaves the
old frames untouched, pop leaves the survivors untouched, and the chaining
invariant is preserved by push, pop, clear and remove. -/
theorem C4_fullMessage_computed_once (s : Stack) (m : String) :
    (NDC.push s m).head? = some (mkFrame m s.head?) ∧
    (mkFrame m s.head?).fullMessage =
      (match s.head? with
       | none => m
       | some p => p.fullMessage ++ sep ++ m) ∧
    (NDC.push s m).tail = s ∧
    (NDC.pop s).2 = s.tail ∧
    (∀ f, f ∈ (NDC.pop s).2 → f ∈ s) ∧
    (fullMessageChained s = true → fullMessageChained (NDC.push s m) = true) ∧
    (fullMessageChained s = true → fullMessageChained (NDC.pop s).2 = true) ∧
    fullMessageChained (NDC.clear s) = true ∧
    fullMessageChained (applyOp s Op.remove) = true := by
  refine ⟨rfl, ?_, rfl, ?_, ?_, ?_, ?_, rfl, rfl⟩
  · cases s with
    | nil => rfl
    | cons p s' => rfl
  · cases s with
    | nil => rfl
    | cons f s' => rfl
  · intro f hf
    cases s with
    | nil => simp [NDC.pop] at hf
    | cons g s' =>
        simp only [NDC.pop] at hf
        exact List.mem_cons_of_mem g hf
  · intro hch
    cases s with
    | nil => simp [NDC.push, mkFrame, fullMessageChained]
    | cons p s' =>
        simp only [NDC.push, List.head?_cons, mkFrame, fullMessageChained]
        rw [Bool.and_eq_true]
        exact ⟨by simp, hch⟩
  · intro hch
    cases s with
    | nil => exact hch
    | cons f s' =>
        cases s' with
        | nil => rfl
        | cons p rest =>
            simp only [fullMessageChained, Bool.and_eq_true] at hch
            exact hch.2

/-- Claim C4 witness: the invariant statement instantiated on a two-frame
stack built by two pushes. -/
theorem C4_witness :
    fullMessageChained (NDC.push (NDC.push [] "a") "b") = true ∧
    (NDC.pop (NDC.push (NDC.push [] "a") "b")).2 = (NDC.push (NDC.push [] "a") "b").tail := by
  have h := C4_fullMessage_computed_once (NDC.push (NDC.push [] "a") "b") "c"
  have h0 := C4_fullMessage_computed_once (NDC.push [] "a") "b"
  have hbase : fullMessageChained (NDC.push [] "a") = true := by decide
  exact ⟨h0.2.2.2.2.2.1 hbase, h.2.2.2.1⟩

/-- Claim C5: constructing the scoped guard performs exactly one push of its
message, and releasing it performs exactly one pop on every exit path
(normal, early return or error unwind); hence any scope body that leaves
the stack depth unchanged restores the original depth after release. -/
theorem C5_scoped_guard (m : String) (body : Stack → ScopeExit × Stack) (s : Stack)
    (hbody : ((body (guardAcquire m s)).2).length = (guardAcquire m s).length) :
    guardAcquire m s = NDC.push s m ∧
    (∀ (e : ScopeExit) (t : Stack), guardRelease e t = (NDC.pop t).2) ∧
    NDC.getDepth (guardRun m body s).2 = NDC.getDepth s := by
  refine ⟨rfl, fun e t => rfl, ?_⟩
  have hlen : ((body (guardAcquire m s)).2).length = s.length + 1 := by
    rw [hbody]; simp [guardAcquire, NDC.push]
  simp only [guardRun, guardRelease, NDC.getDepth]
  cases ht : (body (guardAcquire m s)).2 with
  | nil => rw [ht] at hlen; simp at hlen
  | cons f rest =>
      rw [ht] at hlen
      simp only [NDC.pop]
      simpa using hlen

/-- Claim C5 witness: a body that exits early without touching the stack
leaves the depth after guard release equal to the depth before. -/
theorem C5_witness :
    NDC.getDepth (guardRun "scope" idBody []).2 = NDC.getDepth [] :=
  (C5_scoped_guard "scope" idBody [] rfl).2.2

/-- Claim C3: two-run noninterference — for any interleaving of operations
by two distinct threads A and B, A's stack, and hence its `peek()`,
`pop()`, `getDepth()` and `get()` results, are exactly what they would be
had B performed no operations at all. -/
theorem C3_noninterference (g : ThreadState) (evs : List (ThreadId × Op))
    (A B : ThreadId) (hAB : A ≠ B) (dest : String) :
    run g evs A = run g (evs.filter (fun e => e.1 != B)) A ∧
    NDC.peek (run g evs A) = NDC.peek (run g (evs.filter (fun e => e.1 != B)) A) ∧
    NDC.pop (run g evs A) = NDC.pop (run g (evs.filter (fun e => e.1 != B)) A) ∧
    NDC.getDepth (run g evs A) =
      NDC.getDepth (run g (evs.filter (fun e => e.1 != B)) A) ∧
    NDC.get (run g evs A) dest =
      NDC.get (run g (evs.filter (fun e => e.1 != B)) A) dest := by
  have hproj : ∀ l : List (ThreadId × Op),
      projOps A (l.filter (fun e => e.1 != B)) = projOps A l := by
    intro l
    simp only [projOps, List.filter_filter]
    congr 1
    apply List.filter_congr
    intro a _
    by_cases h : a.1 = A
    · simp [h, hAB]
    · simp [h]
  have hstack : run g evs A = run g (evs.filter (fun e => e.1 != B)) A := by
    rw [run_eq_foldl, run_eq_foldl, hproj evs]
  exact ⟨hstack, by rw [hstack], by rw [hstack], by rw [hstack], by rw [hstack]⟩

/-- Claim C3 witness: with thread 0 as A and thread 1 as B interleaving
pushes, A's stack equals the one from the run without B's operations. -/
theorem C3_witness :
    run (fun _ => []) [(0, Op.push "a"), (1, Op.push "b"), (0, Op.push "c")] 0 =
      run (fun _ => [])
        ([(0, Op.push "a"), (1, Op.push "b"), (0, Op.push "c")].filter
          (fun e => e.1 != 1)) 0 :=
  (C3_noninterference (fun _ => [])
    [(0, Op.push "a"), (1, Op.push "b"), (0, Op.push "c")] 0 1 (by decide) "").1

/-- Claim C7: `remove()` on thread T followed by any later `push(m)` from T
(with arbitrary operations of other threads in between) yields a stack of
depth 1 whose only frame has `message` m and `fullMessage` m. -/
theorem C7_remove_then_push (g : ThreadState) (evs1 evs2 : List (ThreadId × Op))
    (t : ThreadId) (m : String) (h2 : ∀ e ∈ evs2, e.1 ≠ t) :
    run g (evs1 ++ (t, Op.remove) :: (evs2 ++ [(t, Op.push m)])) t = [⟨m, m⟩] ∧
    NDC.getDepth (run g (evs1 ++ (t, Op.remove) :: (evs2 ++ [(t, Op.push m)])) t) = 1 ∧
    NDC.peek (run g (evs1 ++ (t, Op.remove) :: (evs2 ++ [(t, Op.push m)])) t) = m := by
  have h2' : projOps t evs2 = [] := by
    simp only [projOps, List.map_eq_nil_iff, List.filter_eq_nil_iff]
    intro e he
    simpa using h2 e he
  have hsplit : projOps t (evs1 ++ (t, Op.remove) :: (evs2 ++ [(t, Op.push m)])) =
      projOps t evs1 ++ Op.remove :: (projOps t evs2 ++ [Op.push m]) := by
    simp [projOps, List.filter_append, List.filter_cons, List.map_append]
  have hstack : run g (evs1 ++ (t, Op.remove) :: (evs2 ++ [(t, Op.push m)])) t = [⟨m, m⟩] := by
    rw [run_eq_foldl, hsplit, h2']
    simp [List.foldl_append, List.foldl_cons, List.foldl_nil, applyOp, NDC.push, mkFrame]
  exact ⟨hstack, by rw [hstack]; rfl, by rw [hstack]; rfl⟩

/-- Claim C7 witness: after an unrelated push, a remove by thread 0, an
interleaved push by thread 1, and a final push by thread 0, thread 0's
stack is exactly the single fresh frame. -/
theorem C7_witness :
    run (fun _ => [])
      ([(0, Op.push "old")] ++ (0, Op.remove) :: ([(1, Op.push "x")] ++ [(0, Op.push "new")]))
      0 = [⟨"new", "new"⟩] :=
  (C7_remove_then_push (fun _ => []) [(0, Op.push "old")] [(1, Op.push "x")] 0 "new"
    (by decide)).1

/-- Claim C8: lazy reclamation never purges a live thread's registry entry
under any access pattern (reclamation preserves every live entry and the
live-lookup result exactly), while the entry of a thread that died without
calling remove is gone from the registry after any other thread's next
registry access, without the dead thread running any code. -/
theorem C8_lazy_reclamation (live : ThreadId → Bool) (reg : Registry)
    (t caller : ThreadId) :
    (live t = true → ∀ e ∈ reg, e.tid = t → e ∈ reclaim live reg) ∧
    (live t = true → hasEntry t (reclaim live reg) = hasEntry t reg) ∧
    (live t = false → hasEntry t (reclaim live reg) = false) ∧
    (live t = false → caller ≠ t → hasEntry t (resolve live caller reg) = false) := by
  have hdead : live t = false → hasEntry t (reclaim live reg) = false := by
    intro hd
    rw [Bool.eq_false_iff]
    intro hc
    simp only [hasEntry, reclaim, List.any_eq_true, List.mem_filter] at hc
    obtain ⟨e, ⟨hmem, hlive⟩, htid⟩ := hc
    simp only [decide_eq_true_eq] at htid
    rw [htid] at hlive
    rw [hlive] at hd
    exact Bool.true_eq_false ▸ hd ▸ rfl
  refine ⟨?_, ?_, hdead, ?_⟩
  · intro hl e hmem htid
    simp only [reclaim, List.mem_filter]
    exact ⟨hmem, by rw [htid]; exact hl⟩
  · intro hl
    rw [Bool.eq_iff_iff]
    simp only [hasEntry, reclaim, List.any_eq_true, List.mem_filter, decide_eq_true_eq]
    constructor
    · rintro ⟨e, ⟨hmem, _⟩, htid⟩
      exact ⟨e, hmem, htid⟩
    · rintro ⟨e, hmem, htid⟩
      exact ⟨e, ⟨hmem, by rw [htid]; exact hl⟩, htid⟩
  · intro hd hct
    have h1 := hdead hd
    simp only [resolve]
    by_cases hr : hasEntry caller (reclaim live reg) = true
    · rw [if_pos hr]
      exact h1
    · rw [if_neg hr]
      simp only [hasEntry, List.any_cons] at h1 ⊢
      rw [h1]
      simp [hct]

/-- Claim C8 witness: with thread 7 dead and thread 3 live, thread 3's
entry survives reclamation and thread 7's entry is gone after thread 3's
next registry access. -/
theorem C8_witness :
    hasEntry 3 (reclaim (fun u => u != 7) [⟨3, []⟩, ⟨7, []⟩]) =
      hasEntry 3 [⟨3, []⟩, ⟨7, []⟩] ∧
    hasEntry 7 (resolve (fun u => u != 7) 3 [⟨3, []⟩, ⟨7, []⟩]) = false := by
  have h := C8_lazy_reclamation (fun u => u != 7) [⟨3, []⟩, ⟨7, []⟩] 3 3
  have h' := C8_lazy_reclamation (fun u => u != 7) [⟨3, []⟩, ⟨7, []⟩] 7 3
  exact ⟨h.2.1 (by decide), h'.2.2.2 (by decide) (by decide)⟩

end Log4cxx
